import Mathlib

/-!
Shallow embedding of the metric resolution and evaluation engine of
`svr-info` (file `metrics.go`-style source: `loadMetricBestGroups`,
`getExpressionVariables`, `getEvaluatorFunctions`, `evaluateExpression`,
`processEvents`).

Modelling decisions, faithful to the Go source:

* Go `float64` is modelled by `GoFloat`: an exact rational for finite
  values plus the IEEE special values `inf`, `negInf`, `nan`.  Finite
  arithmetic is modelled exactly over `ℚ` (IEEE rounding is abstracted;
  every computation appearing in a claim involves exactly representable
  values, and the exceptional cases — division by zero producing
  infinities or NaN — follow IEEE-754 semantics exactly, as Go does).
* Go maps are modelled as association lists; a Go map lookup of a
  missing key yields the zero value (`0.0` for `float64`), modelled by
  `goMapGet`.  Go map *key sets* (the `mapset` package builds sets from
  map keys) are modelled as `Finset String`.
* The resolution state of a metric variable is the Go sentinel `int`:
  `-1` unresolved, `-2` tried-and-failed, `≥ 0` the assigned group index.
* Go passes `MetricDefinition` structs *by value* but the `Variables`
  map field is a reference: mutations of the map persist to the caller's
  long-lived definition, while assignments to the struct's other fields
  (notably the compiled-expression pointer) are lost with the copy.
  Functions that mutate the map therefore return the updated variable
  list, which `processEvents` stores back into the definition; the
  updated struct copy produced by `evaluateExpression` is discarded,
  exactly as the Go copy is.
* The external collaborators — `getEventFrame` (frame acquisition, not
  part of the engine) and the `govaluate` expression library — are
  modelled as parameters: an `Except`-valued frame input and an
  `EvalEngine` record of compile/evaluate functions.  A `govaluate`
  fault (Go panic carrying an `error` value) is the `panicErr` outcome,
  which the `defer`/`recover` block of `evaluateExpression` converts
  into an ordinary error.
* The unbounded `for {}` loop of `loadMetricBestGroups` is embedded
  with explicit fuel; `resolveLoop_terminates` proves that fuel equal
  to the number of variables always suffices (the dead `none` fallback
  in `loadMetricBestGroups` is unreachable).
-/

/-- Go `float64`: finite values are exact rationals; the IEEE special
values are explicit constructors. -/
inductive GoFloat where
  | finite (q : ℚ)
  | inf
  | negInf
  | nan
deriving DecidableEq, Repr, Inhabited

namespace GoFloat

/-- Go `float64` subtraction (used for `frame.Timestamp - previousTimestamp`). -/
def sub : GoFloat → GoFloat → GoFloat
  | nan, _ => nan
  | _, nan => nan
  | finite a, finite b => finite (a - b)
  | finite _, inf => negInf
  | finite _, negInf => inf
  | inf, negInf => inf
  | inf, _ => nan
  | negInf, inf => negInf
  | negInf, _ => nan

/-- Go `float64` division, IEEE-754: a nonzero finite value divided by
zero is a signed infinity, `0/0` is NaN. -/
def div : GoFloat → GoFloat → GoFloat
  | nan, _ => nan
  | _, nan => nan
  | finite a, finite b =>
      if b = 0 then (if a = 0 then nan else if 0 < a then inf else negInf)
      else finite (a / b)
  | finite _, inf => finite 0
  | finite _, negInf => finite 0
  | inf, finite b => if 0 ≤ b then inf else negInf
  | negInf, finite b => if 0 ≤ b then negInf else inf
  | inf, inf => nan
  | inf, negInf => nan
  | negInf, inf => nan
  | negInf, negInf => nan

/-- Go `float64` multiplication (used for the hyperthreading correction). -/
def mul : GoFloat → GoFloat → GoFloat
  | nan, _ => nan
  | _, nan => nan
  | finite a, finite b => finite (a * b)
  | finite a, inf => if a = 0 then nan else if 0 < a then inf else negInf
  | finite a, negInf => if a = 0 then nan else if 0 < a then negInf else inf
  | inf, finite b => if b = 0 then nan else if 0 < b then inf else negInf
  | negInf, finite b => if b = 0 then nan else if 0 < b then negInf else inf
  | inf, inf => inf
  | inf, negInf => negInf
  | negInf, inf => negInf
  | negInf, negInf => inf

end GoFloat

/-- One multiplexing group's counters for the current frame: event name
to raw accumulated counter value (`EventGroup.EventValues` in the source). -/
structure EventGroup where
  eventValues : List (String × GoFloat)
deriving DecidableEq, Repr, Inhabited

/-- One sample: timestamp plus the ordered counter groups
(`EventFrame` in the source). -/
structure EventFrame where
  timestamp : GoFloat
  eventGroups : List EventGroup
deriving DecidableEq, Repr, Inhabited

/-- Static host facts (`Metadata` in the source); only `ThreadsPerCore`
is used by the engine. -/
structure Metadata where
  threadsPerCore : Int
deriving DecidableEq, Repr

/-- The opaque compiled form produced by the external expression
library (`*govaluate.EvaluableExpression`). -/
structure CompiledExpr where
  src : String
deriving DecidableEq, Repr

/-- `MetricDefinition`: name, formula text, the variable resolution
map (Go `map[string]int` with sentinel values), and the cached
compiled-expression pointer (`EvaluatorExpression`, `nil` ↦ `none`). -/
structure MetricDefinition where
  name : String
  expression : String
  vars    : List (String × Int)
  evaluatorExpression : Option CompiledExpr
deriving DecidableEq, Repr

/-- Output `Metric`: `{Name, Value}`. -/
structure Metric where
  name : String
  value : GoFloat
deriving DecidableEq, Repr

/-- Structured forms of the errors the engine creates. -/
inductive GoErr where
  /-- "metric variable group assignment previously failed, skipping: %s" -/
  | failedVarSkip (name : String)
  /-- "at least one of the variables couldn't be assigned to a group:
  metric variables (%s) not found for metric: %s" — carries the set of
  unresolved variable names and the metric name. -/
  | unresolvedVars (names : Finset String) (metricName : String)
  /-- "variable value set to -2 (shouldn't happen): %s" -/
  | failedVarValue (name : String)
  /-- "failed to put perf events into groups: %v" -/
  | frameFailure (msg : String)
  /-- a compile or evaluation error (including a recovered panic) of
  the expression library -/
  | evalError (msg : String)
deriving DecidableEq

/-- The key set of a Go map modelled as an association list
(`mapset.NewSetFromMapKeys`). -/
def goMapKeys {α : Type} (l : List (String × α)) : Finset String :=
  (l.map Prod.fst).toFinset

/-- Go map lookup: a missing key yields the zero value `0.0`. -/
def goMapGet (l : List (String × GoFloat)) (k : String) : GoFloat :=
  match l.find? (fun p => p.1 == k) with
  | some p => p.2
  | none => GoFloat.finite 0

/-- Go slice indexing `frame.EventGroups[i]` with an `int` index.  An
out-of-range index panics in Go; that crash path is modelled as the
empty group and is never exercised by the claims (which hold under
in-range hypotheses or at concrete in-range inputs). -/
def goIndexGroup (groups : List EventGroup) (i : Int) : EventGroup :=
  if h : 0 ≤ i ∧ i.toNat < groups.length then groups.get ⟨i.toNat, h.2⟩
  else { eventValues := [] }

/-- The inner group scan of `loadMetricBestGroups` (source lines 25–39):
walk the groups in order carrying `bestGroupIdx`/`bestMatches`/
`matchedNames`; update on a strictly greater intersection; break out as
soon as the best intersection covers all remaining variables. `none`
plays the role of `bestGroupIdx == -1`. -/
def scanGo (remaining : Finset String) :
    List EventGroup → Nat → Option (Nat × Finset String) → Nat →
    Option (Nat × Finset String)
  | [], _, best, _ => best
  | g :: gs, idx, best, bestMatches =>
    let intersection := remaining ∩ goMapKeys g.eventValues
    if bestMatches < intersection.card then
      if intersection.card = remaining.card then some (idx, intersection)
      else scanGo remaining gs (idx + 1) (some (idx, intersection)) intersection.card
    else scanGo remaining gs (idx + 1) best bestMatches

/-- One full scan over the frame's groups, starting from
`bestGroupIdx = -1`, `bestMatches = 0`. -/
def scanGroups (remaining : Finset String) (groups : List EventGroup) :
    Option (Nat × Finset String) :=
  scanGo remaining groups 0 none 0

/-- `metric.Variables[name] = v` for every `name` in `names` (the two
bulk map updates of `loadMetricBestGroups`). -/
def setVars (vars : List (String × Int)) (names : Finset String) (v : Int) :
    List (String × Int) :=
  vars.map fun p => if p.1 ∈ names then (p.1, v) else p

/-- The unbounded `for {}` loop of `loadMetricBestGroups` (source lines
20–52), embedded with fuel; `none` means the fuel ran out (shown
unreachable for fuel ≥ the number of remaining variables by
`resolveLoop_terminates`).  On success returns the updated variable map
and, in the no-match case, the set of variable names the error lists. -/
def resolveLoop (groups : List EventGroup) :
    Nat → List (String × Int) → Finset String →
    Option (List (String × Int) × Option (Finset String))
  | 0, vars, remaining =>
    if remaining.card = 0 then some (vars, none) else none
  | fuel + 1, vars, remaining =>
    if remaining.card = 0 then some (vars, none)
    else
      match scanGroups remaining groups with
      | none => some (setVars vars remaining (-2), some remaining)
      | some (idx, matched) =>
          resolveLoop groups fuel (setVars vars matched (Int.ofNat idx))
            (remaining \ matched)

/-- `loadMetricBestGroups`: resolve the metric's variable names against
the frame's groups, returning the mutated variable map and the optional
error (the names it lists).  The `none` fallback is dead code: the loop
always terminates within `allVariableNames.card` iterations. -/
def loadMetricBestGroups (metric : MetricDefinition) (frame : EventFrame) :
    List (String × Int) × Option (Finset String) :=
  let allVariableNames := goMapKeys metric.vars
  match resolveLoop frame.eventGroups allVariableNames.card metric.vars
      allVariableNames with
  | some r => r
  | none => (metric.vars, none)

/-- The body of the value loop of `getExpressionVariables` (source lines
85–91): raw value looked up in the assigned group, divided by the
interval to the previous timestamp, with the hyperthreading correction
for the literal `cstate_core/c6-residency/` counter. -/
def normalizeValue (frame : EventFrame) (previousTimestamp : GoFloat)
    (metadata : Metadata) (name : String) (groupIdx : Int) : GoFloat :=
  let raw := goMapGet (goIndexGroup frame.eventGroups groupIdx).eventValues name
  let value := raw.div (frame.timestamp.sub previousTimestamp)
  if 1 < metadata.threadsPerCore ∧ name = "cstate_core/c6-residency/" then
    value.mul (GoFloat.finite (metadata.threadsPerCore : ℚ))
  else value

/-- `getExpressionVariables`: returns the bindings for the evaluator,
the optional error, and the (possibly mutated) variable map — the Go
`Variables` field is a map, so the mutation made through the struct
copy is visible to the caller's long-lived definition. -/
def getExpressionVariables (metric : MetricDefinition) (frame : EventFrame)
    (previousTimestamp : GoFloat) (metadata : Metadata) :
    List (String × GoFloat) × Option GoErr × List (String × Int) :=
  -- first loop (source lines 61–73): note any `-1`, return on any `-2`
  let loadGroups := metric.vars.any (fun p => p.2 == -1)
  match metric.vars.find? (fun p => p.2 == -2) with
  | some p => ([], some (GoErr.failedVarSkip p.1), metric.vars)
  | none =>
    let resolved :=
      if loadGroups then loadMetricBestGroups metric frame
      else (metric.vars, none)
    match resolved.2 with
    | some names =>
        ([], some (GoErr.unresolvedVars names metric.name), resolved.1)
    | none =>
      -- value loop (source lines 81–92); the `-2` check inside it sets
      -- `err` without returning, exactly as the source does
      let vars := resolved.1
      let bindings :=
        vars.map fun p =>
          (p.1, normalizeValue frame previousTimestamp metadata p.1 p.2)
      let lateErr :=
        match vars.find? (fun p => p.2 == -2) with
        | some p => some (GoErr.failedVarValue p.1)
        | none => none
      (bindings, lateErr, vars)

/-- A value of the dynamically typed expression language
(Go `interface{}` as used by the evaluator). -/
inductive GoVal where
  | intVal (n : Int)
  | floatVal (x : GoFloat)
  | boolVal (b : Bool)
deriving DecidableEq, Repr

/-- The `switch t := args[i].(type)` coercion used by both custom
functions: `int` widens to `float64`, `float64` passes through, any
other type leaves the Go zero value `0.0`. -/
def coerceNumeric : GoVal → GoFloat
  | GoVal.intVal n => GoFloat.finite (n : ℚ)
  | GoVal.floatVal x => x
  | GoVal.boolVal _ => GoFloat.finite 0

/-- Go's builtin `max` on `float64`: NaN-propagating, otherwise the
larger value. -/
def goMaxFloat : GoFloat → GoFloat → GoFloat
  | GoFloat.nan, _ => GoFloat.nan
  | _, GoFloat.nan => GoFloat.nan
  | GoFloat.inf, _ => GoFloat.inf
  | _, GoFloat.inf => GoFloat.inf
  | GoFloat.negInf, y => y
  | x, GoFloat.negInf => x
  | GoFloat.finite a, GoFloat.finite b => GoFloat.finite (max a b)

/-- Go's builtin `min` on `float64`. -/
def goMinFloat : GoFloat → GoFloat → GoFloat
  | GoFloat.nan, _ => GoFloat.nan
  | _, GoFloat.nan => GoFloat.nan
  | GoFloat.negInf, _ => GoFloat.negInf
  | _, GoFloat.negInf => GoFloat.negInf
  | GoFloat.inf, y => y
  | x, GoFloat.inf => x
  | GoFloat.finite a, GoFloat.finite b => GoFloat.finite (min a b)

/-- The `max` custom function registered by `getEvaluatorFunctions`
(source lines 99–115): coerce the first two arguments to `float64` and
return the larger, with a `nil` error.  (Calling it with fewer than two
arguments would panic in Go; the claims pass exactly two.) -/
def maxFn (args : List GoVal) : Except String GoVal :=
  Except.ok (GoVal.floatVal
    (goMaxFloat (coerceNumeric (args.getD 0 (GoVal.intVal 0)))
      (coerceNumeric (args.getD 1 (GoVal.intVal 0)))))

/-- The `min` custom function registered by `getEvaluatorFunctions`
(source lines 116–132). -/
def minFn (args : List GoVal) : Except String GoVal :=
  Except.ok (GoVal.floatVal
    (goMinFloat (coerceNumeric (args.getD 0 (GoVal.intVal 0)))
      (coerceNumeric (args.getD 1 (GoVal.intVal 0)))))

/-- `getEvaluatorFunctions`: the function table handed to the
expression library. -/
def getEvaluatorFunctions : List (String × (List GoVal → Except String GoVal)) :=
  [("max", maxFn), ("min", minFn)]

/-- Possible outcomes of running a compiled expression in the external
library: an ordinary value, an ordinary error, or a Go panic carrying
an `error` value (the faults `govaluate` raises are error-valued
panics, which the `recover` in `evaluateExpression` converts). -/
inductive EvalOutcome where
  | ok (v : GoFloat)
  | err (msg : String)
  | panicErr (msg : String)
deriving DecidableEq, Repr

/-- The external expression library (`govaluate`), abstracted as its
two entry points used by the engine. -/
structure EvalEngine where
  compile : String → Except String CompiledExpr
  evalRun : CompiledExpr → List (String × GoFloat) → EvalOutcome

/-- Run a compiled expression; the surrounding `defer`/`recover` of
`evaluateExpression` turns a panic into an ordinary returned error. -/
def runCompiled (engine : EvalEngine) (c : CompiledExpr)
    (vars    : List (String × GoFloat)) : Except GoErr GoFloat :=
  match engine.evalRun c vars    with
  | EvalOutcome.ok v => Except.ok v
  | EvalOutcome.err e => Except.error (GoErr.evalError e)
  | EvalOutcome.panicErr e => Except.error (GoErr.evalError e)

/-- `evaluateExpression` (source lines 137–155): compile if the struct
copy's cache field is `nil`, store the compiled form **on the copy**,
then evaluate.  Returns the result, the updated copy (which the caller
discards, as Go does), and a ghost flag recording whether this call
performed a compilation. -/
def evaluateExpression (engine : EvalEngine) (metric : MetricDefinition)
    (vars    : List (String × GoFloat)) :
    Except GoErr GoFloat × MetricDefinition × Bool :=
  match metric.evaluatorExpression with
  | none =>
    match engine.compile metric.expression with
    | Except.error e => (Except.error (GoErr.evalError e), metric, true)
    | Except.ok c =>
      let metric2 := { metric with evaluatorExpression := some c }
      (runCompiled engine c vars   , metric2, true)
  | some c => (runCompiled engine c vars   , metric, false)

/-- The body of the per-metric loop of `processEvents` (source lines
164–185): build bindings (mutating the definition's variable map, which
persists), skip on error, evaluate, skip on error, else emit the
metric.  The struct copy updated by `evaluateExpression` — carrying the
freshly compiled expression — is discarded, exactly as in the source. -/
def processOneMetric (engine : EvalEngine) (frame : EventFrame)
    (previousTimestamp : GoFloat) (metadata : Metadata)
    (metricDef : MetricDefinition) : Option Metric × MetricDefinition :=
  let r := getExpressionVariables metricDef frame previousTimestamp metadata
  let metricDef2 := { metricDef with vars    := r.2.2 }
  match r.2.1 with
  | some _ => (none, metricDef2)
  | none =>
    match (evaluateExpression engine metricDef2 r.1).1 with
    | Except.error _ => (none, metricDef2)
    | Except.ok v => (some { name := metricDef2.name, value := v }, metricDef2)

/-- The per-metric loop of `processEvents`, threading the `err` named
return exactly as the source does: every iteration ends with `err`
reassigned (`err = nil` on both skip paths, and the success path's
`evaluateExpression` call returned `nil`), so an incoming error — in
particular the wrapped frame-acquisition error — survives only when the
definition list is empty. -/
def processLoop (engine : EvalEngine) (frame : EventFrame)
    (previousTimestamp : GoFloat) (metadata : Metadata) :
    List MetricDefinition → Option GoErr →
    List Metric × Option GoErr × List MetricDefinition
  | [], err => ([], err, [])
  | d :: ds, _ =>
    let step := processOneMetric engine frame previousTimestamp metadata d
    let rest := processLoop engine frame previousTimestamp metadata ds none
    (match step.1 with
     | some m => m :: rest.1
     | none => rest.1,
     rest.2.1, step.2 :: rest.2.2)

/-- `processEvents` (source lines 157–187).  Frame acquisition
(`getEventFrame`, outside the engine) is abstracted as an
`Except`-valued input; on failure the source wraps the error into `err`
but — lacking a `return` — falls through with the zero-value frame
(timestamp `0`, no groups) and lets the loop overwrite `err`.  Returns
the metrics, the frame timestamp, the final `err`, and the definitions
with their (aliased, hence persistent) variable maps updated.

The frame-acquisition step at the top (source lines 158–161) is
`acquireFrame`: on success the frame and a `nil` error; on failure the
Go zero-value frame together with the wrapped error that the source
assigns to `err` (without returning). -/
def acquireFrame (frameResult : Except String EventFrame) :
    EventFrame × Option GoErr :=
  match frameResult with
  | Except.ok f => (f, none)
  | Except.error e =>
      ({ timestamp := GoFloat.finite 0, eventGroups := [] },
       some (GoErr.frameFailure e))

def processEvents (engine : EvalEngine) (frameResult : Except String EventFrame)
    (metricDefinitions : List MetricDefinition) (previousTimestamp : GoFloat)
    (metadata : Metadata) :
    List Metric × GoFloat × Option GoErr × List MetricDefinition :=
  let acquired := acquireFrame frameResult
  let r := processLoop engine acquired.1 previousTimestamp metadata
    metricDefinitions acquired.2
  (r.1, acquired.1.timestamp, r.2.1, r.2.2)

/-- Iterated pipeline calls: fold `processEvents` over a list of
(frame input, previous timestamp) pairs, threading the metric
definitions — whose variable maps are the state that persists across
frames — from call to call. -/
def pipelineRun (engine : EvalEngine) (metadata : Metadata)
    (defs : List MetricDefinition) :
    List (Except String EventFrame × GoFloat) → List MetricDefinition
  | [] => defs
  | fr :: rest =>
      pipelineRun engine metadata
        (processEvents engine fr.1 defs fr.2 metadata).2.2.2 rest

/-- The empty `EventGroup` (also the Go zero value). -/
def emptyGroup : EventGroup := { eventValues := [] }

/-- The size of the intersection between the remaining variable names
and the event names of group `j` — the quantity the scan of
`loadMetricBestGroups` maximises. -/
def interCard (remaining : Finset String) (groups : List EventGroup) (j : Nat) : Nat :=
  (remaining ∩ goMapKeys (groups.getD j emptyGroup).eventValues).card

/-- The uncorrected per-second rate of one variable: raw value from the
assigned group divided by the interval to the previous timestamp. -/
def rawRate (frame : EventFrame) (previousTimestamp : GoFloat)
    (name : String) (groupIdx : Int) : GoFloat :=
  (goMapGet (goIndexGroup frame.eventGroups groupIdx).eventValues name).div
    (frame.timestamp.sub previousTimestamp)

/-- Every variable of the map carries an assigned group index (the
`ResolvedToGroup` state). -/
def allResolved (vars : List (String × Int)) : Prop := ∀ p ∈ vars, 0 ≤ p.2

/-- Every variable is still in the initial `Unresolved` state `-1`. -/
def allUnresolved (vars : List (String × Int)) : Prop := ∀ p ∈ vars, p.2 = -1

/-- No variable is in the `Unresolved` state `-1`. -/
def noUnresolved (vars : List (String × Int)) : Prop := ∀ p ∈ vars, p.2 ≠ -1

/-- Some variable is in the `Failed` state `-2`. -/
def hasFailed (vars : List (String × Int)) : Prop := ∃ p ∈ vars, p.2 = -2

/-- The reachability invariant of a definition's variable map: either
still fully unresolved (no pipeline call has touched it) or containing
no unresolved variable (one resolution pass assigns or fails every
variable at once, since `loadMetricBestGroups` starts from the full key
set). -/
def VarInv (vars : List (String × Int)) : Prop :=
  allUnresolved vars ∨ noUnresolved vars

/-- The allowed per-call evolution of a variable map: names and order
preserved, and each state either unchanged or transitioning
`Unresolved → Failed` (`-1 → -2`) or `Unresolved → ResolvedToGroup`
(`-1 → i ≥ 0`) — never reversed. -/
def varsTrans (old new : List (String × Int)) : Prop :=
  List.Forall₂
    (fun p q => q.1 = p.1 ∧ (q.2 = p.2 ∨ (p.2 = -1 ∧ (q.2 = -2 ∨ 0 ≤ q.2))))
    old new

/-- What one `processEvents` call may do to one metric definition. -/
def DefStep (d d2 : MetricDefinition) : Prop :=
  d2.name = d.name ∧ d2.expression = d.expression ∧
  d2.evaluatorExpression = d.evaluatorExpression ∧
  VarInv d2.vars ∧ varsTrans d.vars d2.vars ∧
  (hasFailed d.vars → d2.vars = d.vars) ∧
  (allResolved d.vars → d2.vars = d.vars)

/-- An engine that compiles everything and evaluates every expression
to the constant `2.0`. -/
def demoEngine : EvalEngine :=
  { compile := fun s => Except.ok { src := s },
    evalRun := fun _ _ => EvalOutcome.ok (GoFloat.finite 2) }

/-- An engine that evaluates every expression to the binding of the
variable `a`. -/
def lookupEngine : EvalEngine :=
  { compile := fun s => Except.ok { src := s },
    evalRun := fun _ b => EvalOutcome.ok (goMapGet b "a") }

/-- An engine whose evaluation always raises an error-valued panic, as
`govaluate` faults do. -/
def panicEngine : EvalEngine :=
  { compile := fun s => Except.ok { src := s },
    evalRun := fun _ _ => EvalOutcome.panicErr "runtime fault" }

/-- A metric with no variables and a constant formula. -/
def constDef : MetricDefinition :=
  { name := "const", expression := "1 + 1", vars := [], evaluatorExpression := none }

/-- A frame with no groups. -/
def demoFrame : EventFrame := { timestamp := GoFloat.finite 1, eventGroups := [] }

/-- A metric whose single variable `a` is already resolved to group 0. -/
def resolvedMetric1 : MetricDefinition :=
  { name := "m1", expression := "a", vars := [("a", 0)], evaluatorExpression := none }

/-- A frame carrying `a = 5` whose timestamp equals the previous
timestamp `1`, making the normalization interval zero. -/
def frameInterval0 : EventFrame :=
  { timestamp := GoFloat.finite 1,
    eventGroups := [{ eventValues := [("a", GoFloat.finite 5)] }] }

/-- A metric whose single variable `b` is resolved to group 0. -/
def missingValMetric : MetricDefinition :=
  { name := "m8", expression := "b", vars := [("b", 0)], evaluatorExpression := none }

/-- A frame whose only group has no entry for `b`. -/
def frameMissing : EventFrame :=
  { timestamp := GoFloat.finite 2,
    eventGroups := [{ eventValues := [("other", GoFloat.finite 9)] }] }

/-- A metric with an unresolvable variable (no group supplies `zzz`). -/
def badDef : MetricDefinition :=
  { name := "bad", expression := "zzz", vars := [("zzz", -1)], evaluatorExpression := none }

/-- A fully valid metric over the variable `a`. -/
def goodDef : MetricDefinition :=
  { name := "good", expression := "a", vars := [("a", -1)], evaluatorExpression := none }

/-- A frame supplying `a = 4` at timestamp `2`. -/
def frameIso : EventFrame :=
  { timestamp := GoFloat.finite 2,
    eventGroups := [{ eventValues := [("a", GoFloat.finite 4)] }] }

/-- A metric whose variable is the literal core-residency counter,
resolved to group 0. -/
def cstateMetric : MetricDefinition :=
  { name := "c6", expression := "cstate_core/c6-residency/",
    vars := [("cstate_core/c6-residency/", 0)], evaluatorExpression := none }

/-- A frame supplying a raw core-residency count of `5.0e8` over a
one-second interval (previous timestamp `0`). -/
def frameCstate : EventFrame :=
  { timestamp := GoFloat.finite 1,
    eventGroups :=
      [{ eventValues := [("cstate_core/c6-residency/", GoFloat.finite 500000000)] }] }

/-- The postcondition of the group scan: `none` means every group has
an empty intersection with the remaining names; `some (i, m)` means `i`
is in range, `m` is exactly group `i`'s (nonempty) intersection with
the remaining names, and `i` is the **earliest** index attaining the
maximal intersection size — later groups never exceed it, earlier
groups are strictly smaller. -/
def ScanResult (remaining : Finset String) (groups : List EventGroup) :
    Option (Nat × Finset String) → Prop
  | none => ∀ j < groups.length, interCard remaining groups j = 0
  | some (i, m) =>
      i < groups.length ∧
      m = remaining ∩ goMapKeys (groups.getD i emptyGroup).eventValues ∧
      0 < m.card ∧
      (∀ j < groups.length,
        interCard remaining groups j ≤ interCard remaining groups i) ∧
      ∀ j < i, interCard remaining groups j < interCard remaining groups i

/-- The loop invariant of the scan accumulator
(`bestGroupIdx`/`matchedNames`/`bestMatches`) after the groups before
index `idx` have been examined. -/
def ScanAcc (remaining : Finset String) (groups : List EventGroup) (idx : Nat) :
    Option (Nat × Finset String) → Nat → Prop
  | none, bm => bm = 0 ∧ ∀ j < idx, interCard remaining groups j = 0
  | some (b, m), bm =>
      b < idx ∧ b < groups.length ∧
      m = remaining ∩ goMapKeys (groups.getD b emptyGroup).eventValues ∧
      bm = m.card ∧ 0 < bm ∧ bm < remaining.card ∧
      (∀ j < idx, interCard remaining groups j ≤ bm) ∧
      ∀ j < b, interCard remaining groups j < bm

instance (vars : List (String × Int)) : Decidable (allResolved vars) :=
  List.decidableBAll _ vars

instance (vars : List (String × Int)) : Decidable (allUnresolved vars) :=
  List.decidableBAll _ vars

instance (vars : List (String × Int)) : Decidable (noUnresolved vars) :=
  List.decidableBAll _ vars

instance (vars : List (String × Int)) : Decidable (hasFailed vars) :=
  List.decidableBEx _ vars

instance (vars : List (String × Int)) : Decidable (VarInv vars) :=
  inferInstanceAs (Decidable (allUnresolved vars ∨ noUnresolved vars))

/-! ## Helper lemmas -/

/-- On a metric whose variables are all resolved (state `≥ 0`),
`getExpressionVariables` takes no error path at all: it returns the
normalized bindings, a `nil` error, and the unchanged variable map —
regardless of the frame, the interval, or the raw values. -/
theorem getExpressionVariables_allResolved
    (metric : MetricDefinition) (frame : EventFrame) (previousTimestamp : GoFloat)
    (metadata : Metadata) (h : allResolved metric.vars) :
    getExpressionVariables metric frame previousTimestamp metadata =
      (metric.vars.map
        (fun p => (p.1, normalizeValue frame previousTimestamp metadata p.1 p.2)),
       none, metric.vars) := by
  have hany : metric.vars.any (fun p => p.2 == -1) = false := by
    simp only [List.any_eq_false, beq_iff_eq]
    intro p hp
    have := h p hp
    omega
  have hfind : metric.vars.find? (fun p => p.2 == -2) = none := by
    rw [List.find?_eq_none]
    intro p hp
    have := h p hp
    simp only [beq_iff_eq]
    omega
  simp only [getExpressionVariables, hany, hfind, Bool.false_eq_true, if_false]

/-! ## Claim theorems -/

/-- C1, counterexample: with variable `a` resolved and a frame whose
timestamp equals the previous timestamp (interval zero), the Normalizer
returns **no** error and the binding for `a` is the IEEE infinity —
contradicting the claim that a non-positive interval yields a
normalization error and never an infinite value. -/
theorem normalizer_zero_interval_silent_infinity :
    getExpressionVariables resolvedMetric1 frameInterval0 (GoFloat.finite 1) ⟨1⟩ =
      ([("a", GoFloat.inf)], none, [("a", 0)]) := by
  norm_num [getExpressionVariables, resolvedMetric1, frameInterval0, normalizeValue,
    goMapGet, goIndexGroup, GoFloat.div, GoFloat.sub]

/-- C1 (amended): the Normalizer performs no interval check.  For a
metric with all variables resolved it returns a `nil` error whatever
the interval, the bindings are the raw values divided by the interval,
and with a zero interval a positive raw value produces the IEEE
infinity that flows on into evaluation. -/
theorem normalizer_interval_unchecked (metric : MetricDefinition)
    (frame : EventFrame) (previousTimestamp : GoFloat) (metadata : Metadata)
    (h : allResolved metric.vars)
    (hzero : frame.timestamp.sub previousTimestamp = GoFloat.finite 0) :
    (getExpressionVariables metric frame previousTimestamp metadata).2.1 = none ∧
    (getExpressionVariables metric frame previousTimestamp metadata).1 =
      metric.vars.map
        (fun p => (p.1, normalizeValue frame previousTimestamp metadata p.1 p.2)) ∧
    ∀ name idx q,
      goMapGet (goIndexGroup frame.eventGroups idx).eventValues name =
        GoFloat.finite q →
      0 < q → rawRate frame previousTimestamp name idx = GoFloat.inf := by
  refine ⟨?_, ?_, ?_⟩
  · rw [getExpressionVariables_allResolved metric frame previousTimestamp metadata h]
  · rw [getExpressionVariables_allResolved metric frame previousTimestamp metadata h]
  · intro name idx q hq hpos
    rw [rawRate, hq, hzero]
    simp [GoFloat.div, ne_of_gt hpos, hpos]

/-- C1 witness: the amended theorem applied at the concrete
zero-interval input, exhibiting the infinite rate. -/
theorem normalizer_interval_unchecked_witness :
    allResolved resolvedMetric1.vars ∧
    frameInterval0.timestamp.sub (GoFloat.finite 1) = GoFloat.finite 0 ∧
    rawRate frameInterval0 (GoFloat.finite 1) "a" 0 = GoFloat.inf := by
  have hz : frameInterval0.timestamp.sub (GoFloat.finite 1) = GoFloat.finite 0 := by
    norm_num [GoFloat.sub, show frameInterval0.timestamp = GoFloat.finite 1 from rfl]
  refine ⟨by decide, hz, ?_⟩
  exact (normalizer_interval_unchecked resolvedMetric1 frameInterval0
      (GoFloat.finite 1) ⟨1⟩ (by decide) hz).2.2 "a" 0 5 (by decide) (by norm_num)

/-- C2: `processEvents` wraps a frame-acquisition failure into `err`
but, lacking a `return`, falls through: with one (variable-free) metric
definition the error is overwritten to `nil` and a metric is even
produced from the zero-value frame.  The claim (frame errors propagate
as hard failures and no metrics are produced) names the intended
behavior; the code's own error wrapping shows the missing `return` is a
slip. -/
theorem frame_acquisition_error_swallowed :
    (acquireFrame (Except.error "parse failure")).2 =
      some (GoErr.frameFailure "parse failure") ∧
    processEvents demoEngine (Except.error "parse failure") [constDef]
        (GoFloat.finite 0) ⟨1⟩ =
      ([{ name := "const", value := GoFloat.finite 2 }], GoFloat.finite 0, none,
       [constDef]) := by
  refine ⟨rfl, ?_⟩
  norm_num [processEvents, acquireFrame, processLoop, processOneMetric,
    getExpressionVariables, constDef, demoEngine, evaluateExpression, runCompiled]

/-- C3: the compiled-expression cache never persists.  After a full
`processEvents` call the stored definition's `evaluatorExpression` is
still `none` (the compiled form was assigned to the by-value copy and
lost), so the next frame's `evaluateExpression` call compiles again
(ghost flag `true`) — even though that call does produce an updated
copy carrying the cache, and the source comment says it is saved to
avoid recompilation. -/
theorem compiled_expression_cache_lost :
    (processEvents demoEngine (Except.ok demoFrame) [constDef]
        (GoFloat.finite 0) ⟨1⟩).2.2.2 = [constDef] ∧
    constDef.evaluatorExpression = none ∧
    (evaluateExpression demoEngine constDef []).2.1.evaluatorExpression =
      some { src := "1 + 1" } ∧
    (evaluateExpression demoEngine constDef []).2.2 = true := by
  refine ⟨?_, rfl, rfl, rfl⟩
  norm_num [processEvents, acquireFrame, processLoop, processOneMetric,
    getExpressionVariables, constDef, demoEngine, evaluateExpression, runCompiled]

/-- C9: the `max` and `min` custom functions registered by
`getEvaluatorFunctions` take their first two arguments, accept integer
or real values, and return the larger (resp. smaller) as a real number;
in particular `max(3, 7)` gives `7.0` and `min(3, 7)` gives `3.0`. -/
theorem builtin_max_min_semantics :
    (∀ q r : ℚ,
      maxFn [GoVal.floatVal (GoFloat.finite q), GoVal.floatVal (GoFloat.finite r)] =
        Except.ok (GoVal.floatVal (GoFloat.finite (max q r))) ∧
      minFn [GoVal.floatVal (GoFloat.finite q), GoVal.floatVal (GoFloat.finite r)] =
        Except.ok (GoVal.floatVal (GoFloat.finite (min q r)))) ∧
    (∀ n m : Int,
      maxFn [GoVal.intVal n, GoVal.intVal m] =
        Except.ok (GoVal.floatVal (GoFloat.finite (max (n : ℚ) (m : ℚ)))) ∧
      minFn [GoVal.intVal n, GoVal.intVal m] =
        Except.ok (GoVal.floatVal (GoFloat.finite (min (n : ℚ) (m : ℚ))))) ∧
    getEvaluatorFunctions.lookup "max" = some maxFn ∧
    getEvaluatorFunctions.lookup "min" = some minFn ∧
    maxFn [GoVal.floatVal (GoFloat.finite 3), GoVal.floatVal (GoFloat.finite 7)] =
      Except.ok (GoVal.floatVal (GoFloat.finite 7)) ∧
    minFn [GoVal.floatVal (GoFloat.finite 3), GoVal.floatVal (GoFloat.finite 7)] =
      Except.ok (GoVal.floatVal (GoFloat.finite 3)) := by
  refine ⟨fun q r => ⟨rfl, rfl⟩, fun n m => ⟨rfl, rfl⟩, rfl, rfl, ?_, ?_⟩
  · norm_num [maxFn, coerceNumeric, goMaxFloat]
  · norm_num [minFn, coerceNumeric, goMinFloat]

/-- C7: the hyperthreading correction is applied exactly when
`threadsPerCore > 1` and the variable name is the literal
`cstate_core/c6-residency/`: the Normalizer's bindings are the
per-variable normalized values, which equal the uncorrected rate times
`threadsPerCore` in that one case and the uncorrected rate otherwise. -/
theorem hyperthreading_correction_scoped (metric : MetricDefinition)
    (frame : EventFrame) (previousTimestamp : GoFloat) (metadata : Metadata)
    (h : allResolved metric.vars) :
    (getExpressionVariables metric frame previousTimestamp metadata).1 =
      metric.vars.map
        (fun p => (p.1, normalizeValue frame previousTimestamp metadata p.1 p.2)) ∧
    (∀ name idx, 1 < metadata.threadsPerCore →
      name = "cstate_core/c6-residency/" →
      normalizeValue frame previousTimestamp metadata name idx =
        (rawRate frame previousTimestamp name idx).mul
          (GoFloat.finite (metadata.threadsPerCore : ℚ))) ∧
    (∀ name idx, ¬ (1 < metadata.threadsPerCore ∧
        name = "cstate_core/c6-residency/") →
      normalizeValue frame previousTimestamp metadata name idx =
        rawRate frame previousTimestamp name idx) := by
  refine ⟨?_, ?_, ?_⟩
  · rw [getExpressionVariables_allResolved metric frame previousTimestamp metadata h]
  · intro name idx h1 h2
    simp only [normalizeValue, rawRate]
    rw [if_pos ⟨h1, h2⟩]
  · intro name idx hneg
    simp only [normalizeValue, rawRate]
    rw [if_neg hneg]

/-- C7 witness: the spec's test values — raw core-residency count
`5.0e8` over a one-second interval gives `1.0e9` with
`threadsPerCore = 2` and stays `5.0e8` with `threadsPerCore = 1`. -/
theorem hyperthreading_correction_scoped_witness :
    allResolved cstateMetric.vars ∧
    (getExpressionVariables cstateMetric frameCstate (GoFloat.finite 0) ⟨2⟩).1 =
      [("cstate_core/c6-residency/", GoFloat.finite 1000000000)] ∧
    (getExpressionVariables cstateMetric frameCstate (GoFloat.finite 0) ⟨1⟩).1 =
      [("cstate_core/c6-residency/", GoFloat.finite 500000000)] := by
  refine ⟨by decide, ?_, ?_⟩
  · rw [(hyperthreading_correction_scoped cstateMetric frameCstate
      (GoFloat.finite 0) ⟨2⟩ (by decide)).1]
    norm_num [cstateMetric, frameCstate, normalizeValue, goMapGet, goIndexGroup,
      GoFloat.div, GoFloat.sub, GoFloat.mul]
  · rw [(hyperthreading_correction_scoped cstateMetric frameCstate
      (GoFloat.finite 0) ⟨1⟩ (by decide)).1]
    norm_num [cstateMetric, frameCstate, normalizeValue, goMapGet, goIndexGroup,
      GoFloat.div, GoFloat.sub, GoFloat.mul]

/-- C8, counterexample: variable `b` is resolved to group 0, the frame's
group 0 has no entry for `b`, the interval is one second — and the
Normalizer reports **no** failure: it proceeds with the Go zero value,
binding `b` to `0.0`. -/
theorem missing_raw_value_silent_zero :
    getExpressionVariables missingValMetric frameMissing (GoFloat.finite 1) ⟨1⟩ =
      ([("b", GoFloat.finite 0)], none, [("b", 0)]) := by
  have hraw : goMapGet (goIndexGroup frameMissing.eventGroups 0).eventValues "b" =
      GoFloat.finite 0 := by decide
  have hsub : frameMissing.timestamp.sub (GoFloat.finite 1) = GoFloat.finite 1 := by
    norm_num [GoFloat.sub, show frameMissing.timestamp = GoFloat.finite 2 from rfl]
  norm_num [getExpressionVariables, missingValMetric, normalizeValue, hraw, hsub,
    GoFloat.div]

/-- C8 (amended): a raw-value lookup that misses yields the Go map zero
value `0.0`, which is then normalized (divided by the interval, with
the usual correction) like any other value; the Normalizer raises no
error for it — for an all-resolved metric the returned error is `nil`. -/
theorem missing_raw_value_zero_behavior (frame : EventFrame)
    (previousTimestamp : GoFloat) (metadata : Metadata) (name : String) (idx : Int)
    (hmiss : ((goIndexGroup frame.eventGroups idx).eventValues).find?
        (fun p => p.1 == name) = none) :
    goMapGet (goIndexGroup frame.eventGroups idx).eventValues name =
      GoFloat.finite 0 ∧
    normalizeValue frame previousTimestamp metadata name idx =
      (if 1 < metadata.threadsPerCore ∧ name = "cstate_core/c6-residency/"
       then ((GoFloat.finite 0).div (frame.timestamp.sub previousTimestamp)).mul
          (GoFloat.finite (metadata.threadsPerCore : ℚ))
       else (GoFloat.finite 0).div (frame.timestamp.sub previousTimestamp)) ∧
    ∀ metric : MetricDefinition, allResolved metric.vars →
      (getExpressionVariables metric frame previousTimestamp metadata).2.1 = none := by
  have hzero : goMapGet (goIndexGroup frame.eventGroups idx).eventValues name =
      GoFloat.finite 0 := by
    rw [goMapGet, hmiss]
  refine ⟨hzero, ?_, ?_⟩
  · simp only [normalizeValue, hzero]
  · intro metric hres
    rw [getExpressionVariables_allResolved metric frame previousTimestamp metadata hres]

/-- C8 witness: the amended theorem applied at the concrete
missing-entry input. -/
theorem missing_raw_value_zero_behavior_witness :
    ((goIndexGroup frameMissing.eventGroups 0).eventValues).find?
        (fun p => p.1 == "b") = none ∧
    goMapGet (goIndexGroup frameMissing.eventGroups 0).eventValues "b" =
      GoFloat.finite 0 := by
  refine ⟨by decide, ?_⟩
  exact (missing_raw_value_zero_behavior frameMissing (GoFloat.finite 1) ⟨1⟩ "b" 0
    (by decide)).1

/-- The per-metric loop computes each metric independently: the output
list is a `filterMap` of the per-definition step over the definitions,
the updated definitions are the per-definition updates, and the `err`
named return survives only on an empty definition list. -/
theorem processLoop_spec (engine : EvalEngine) (frame : EventFrame)
    (previousTimestamp : GoFloat) (metadata : Metadata)
    (defs : List MetricDefinition) :
    ∀ err : Option GoErr,
      (processLoop engine frame previousTimestamp metadata defs err).1 =
        defs.filterMap
          (fun d => (processOneMetric engine frame previousTimestamp metadata d).1) ∧
      (processLoop engine frame previousTimestamp metadata defs err).2.2 =
        defs.map
          (fun d => (processOneMetric engine frame previousTimestamp metadata d).2) ∧
      (processLoop engine frame previousTimestamp metadata defs err).2.1 =
        (if defs.isEmpty then err else none) := by
  induction defs with
  | nil => intro err; exact ⟨rfl, rfl, rfl⟩
  | cons d ds ih =>
    intro err
    obtain ⟨ih1, ih2, ih3⟩ := ih none
    refine ⟨?_, ?_, ?_⟩
    · simp only [processLoop, List.filterMap_cons]
      cases hstep : (processOneMetric engine frame previousTimestamp metadata d).1 <;>
        simp [hstep, ih1]
    · simp only [processLoop, List.map_cons, ih2]
    · simp only [processLoop, ih3]
      rcases ds with _ | ⟨d2, ds2⟩ <;> simp

/-- C6: evaluator faults are intercepted and isolated.  (1) The metrics
a `processEvents` call emits are a `filterMap` of an independent
per-definition computation, so one metric's failure cannot affect any
other metric's output.  (2–4) An error-valued panic raised while
running a cached or freshly compiled expression, and a compilation
error, are each converted at the `evaluateExpression` boundary into an
ordinary returned error.  (5) Concretely, a metric set with one
unresolvable metric and one fully valid metric yields exactly the
valid metric, with a `nil` overall error. -/
theorem evaluator_fault_isolation :
    (∀ (engine : EvalEngine) (frameRes : Except String EventFrame)
        (defs : List MetricDefinition) (prev : GoFloat) (meta : Metadata),
      (processEvents engine frameRes defs prev meta).1 =
        defs.filterMap
          (fun d => (processOneMetric engine (acquireFrame frameRes).1 prev meta d).1)) ∧
    (∀ (engine : EvalEngine) (metric : MetricDefinition)
        (bindings : List (String × GoFloat)) (c : CompiledExpr) (e : String),
      metric.evaluatorExpression = some c →
      engine.evalRun c bindings = EvalOutcome.panicErr e →
      (evaluateExpression engine metric bindings).1 =
        Except.error (GoErr.evalError e)) ∧
    (∀ (engine : EvalEngine) (metric : MetricDefinition)
        (bindings : List (String × GoFloat)) (e : String),
      metric.evaluatorExpression = none →
      engine.compile metric.expression = Except.error e →
      (evaluateExpression engine metric bindings).1 =
        Except.error (GoErr.evalError e)) ∧
    (∀ (engine : EvalEngine) (metric : MetricDefinition)
        (bindings : List (String × GoFloat)) (c : CompiledExpr) (e : String),
      metric.evaluatorExpression = none →
      engine.compile metric.expression = Except.ok c →
      engine.evalRun c bindings = EvalOutcome.panicErr e →
      (evaluateExpression engine metric bindings).1 =
        Except.error (GoErr.evalError e)) ∧
    processEvents lookupEngine (Except.ok frameIso) [badDef, goodDef]
        (GoFloat.finite 1) ⟨1⟩ =
      ([{ name := "good", value := GoFloat.finite 4 }], GoFloat.finite 2, none,
       [{ name := "bad", expression := "zzz", vars := [("zzz", -2)],
          evaluatorExpression := none },
        { name := "good", expression := "a", vars := [("a", 0)],
          evaluatorExpression := none }]) := by
  refine ⟨?_, ?_, ?_, ?_, ?_⟩
  · intro engine frameRes defs prev meta
    exact (processLoop_spec engine (acquireFrame frameRes).1 prev meta defs
      (acquireFrame frameRes).2).1
  · intro engine metric bindings c e hc hrun
    simp only [evaluateExpression, hc, runCompiled, hrun]
  · intro engine metric bindings e hc hcomp
    simp only [evaluateExpression, hc, hcomp]
  · intro engine metric bindings c e hc hcomp hrun
    simp only [evaluateExpression, hc, hcomp, runCompiled, hrun]
  · have hbad : processOneMetric lookupEngine frameIso (GoFloat.finite 1) ⟨1⟩ badDef =
        (none, { name := "bad", expression := "zzz", vars := [("zzz", -2)],
                 evaluatorExpression := none }) := by decide
    have hvars : getExpressionVariables goodDef frameIso (GoFloat.finite 1) ⟨1⟩ =
        ([("a", GoFloat.finite 4)], none, [("a", 0)]) := by
      have hload : loadMetricBestGroups goodDef frameIso = ([("a", 0)], none) := by
        decide
      have hraw : goMapGet (goIndexGroup frameIso.eventGroups 0).eventValues "a" =
          GoFloat.finite 4 := by decide
      have hsub : frameIso.timestamp.sub (GoFloat.finite 1) = GoFloat.finite 1 := by
        norm_num [GoFloat.sub, show frameIso.timestamp = GoFloat.finite 2 from rfl]
      norm_num [getExpressionVariables, show goodDef.vars = [("a", -1)] from rfl,
        show goodDef.name = "good" from rfl, hload, normalizeValue, hraw, hsub,
        GoFloat.div]
    have hgood : processOneMetric lookupEngine frameIso (GoFloat.finite 1) ⟨1⟩ goodDef =
        (some { name := "good", value := GoFloat.finite 4 },
         { name := "good", expression := "a", vars := [("a", 0)],
           evaluatorExpression := none }) := by
      have h2 : ({ goodDef with vars := [("a", 0)] } : MetricDefinition) =
          { name := "good", expression := "a", vars := [("a", 0)],
            evaluatorExpression := none } := rfl
      simp only [processOneMetric, hvars, h2, evaluateExpression, runCompiled,
        lookupEngine]
      norm_num [goMapGet, show goodDef.evaluatorExpression = none from rfl,
        show goodDef.name = "good" from rfl]
    simp only [processEvents, acquireFrame, processLoop, hbad, hgood,
      show frameIso.timestamp = GoFloat.finite 2 from rfl]

/-- Splitting a `drop` that yields a cons: the head is the element at
that index and the tail is the next drop. -/
theorem drop_cons_getD {α : Type} (d : α) :
    ∀ (l : List α) (n : Nat) (x : α) (xs : List α),
      l.drop n = x :: xs → l.getD n d = x ∧ l.drop (n + 1) = xs := by
  intro l
  induction l with
  | nil => intro n x xs h; simp at h
  | cons a as ih =>
    intro n x xs h
    cases n with
    | zero =>
      rw [List.drop_zero] at h
      cases h
      exact ⟨rfl, by simp⟩
    | succ n =>
      rw [List.drop_succ_cons] at h
      have := ih n x xs h
      exact ⟨by simpa using this.1, by simpa using this.2⟩

/-- The intersection size with any group never exceeds the number of
remaining names. -/
theorem interCard_le (remaining : Finset String) (groups : List EventGroup)
    (j : Nat) : interCard remaining groups j ≤ remaining.card :=
  Finset.card_le_card Finset.inter_subset_left

/-- Correctness of the scan loop: starting at index `idx` with an
accumulator satisfying the invariant, the scan's result satisfies the
earliest-argmax postcondition. -/
theorem scanGo_char (remaining : Finset String) (groups : List EventGroup) :
    ∀ (gs : List EventGroup) (idx : Nat) (best : Option (Nat × Finset String))
      (bm : Nat),
      groups.drop idx = gs →
      ScanAcc remaining groups idx best bm →
      ScanResult remaining groups (scanGo remaining gs idx best bm) := by
  intro gs
  induction gs with
  | nil =>
    intro idx best bm hdrop hacc
    have hlen : groups.length ≤ idx := by
      have h1 := congrArg List.length hdrop
      simp only [List.length_drop, List.length_nil] at h1
      omega
    cases best with
    | none =>
      obtain ⟨hbm, hall⟩ := hacc
      intro j hj
      exact hall j (lt_of_lt_of_le hj hlen)
    | some pr =>
      obtain ⟨b, m⟩ := pr
      obtain ⟨hb, hblen, hm, hbm, hpos, hrem, hle, hltb⟩ := hacc
      have hib : interCard remaining groups b = m.card := by
        rw [interCard, ← hm]
      refine ⟨hblen, hm, by omega, ?_, ?_⟩
      · intro j hj
        rw [hib, ← hbm]
        exact hle j (lt_of_lt_of_le hj hlen)
      · intro j hj
        rw [hib, ← hbm]
        exact hltb j hj
  | cons g gs2 ih =>
    intro idx best bm hdrop hacc
    have hidx : idx < groups.length := by
      have h1 := congrArg List.length hdrop
      simp only [List.length_drop, List.length_cons] at h1
      omega
    obtain ⟨hgetD, hdrop2⟩ := drop_cons_getD emptyGroup groups idx g gs2 hdrop
    have hic : interCard remaining groups idx =
        (remaining ∩ goMapKeys g.eventValues).card := by
      rw [interCard, hgetD]
    simp only [scanGo]
    by_cases hlt : bm < (remaining ∩ goMapKeys g.eventValues).card
    · rw [if_pos hlt]
      by_cases hfull : (remaining ∩ goMapKeys g.eventValues).card = remaining.card
      · rw [if_pos hfull]
        have hposc : 0 < (remaining ∩ goMapKeys g.eventValues).card := by omega
        refine ⟨hidx, by rw [hgetD], hposc, ?_, ?_⟩
        · intro j hj
          rw [hic, hfull]
          exact interCard_le remaining groups j
        · intro j hj
          rw [hic]
          cases best with
          | none =>
            obtain ⟨hbm, hall⟩ := hacc
            rw [hall j hj]
            omega
          | some pr =>
            obtain ⟨b, m⟩ := pr
            obtain ⟨_, _, _, _, _, _, hle, _⟩ := hacc
            exact lt_of_le_of_lt (hle j hj) hlt
      · rw [if_neg hfull]
        apply ih (idx + 1) _ _ hdrop2
        have hsubc : (remaining ∩ goMapKeys g.eventValues).card ≤ remaining.card :=
          Finset.card_le_card Finset.inter_subset_left
        refine ⟨by omega, hidx, by rw [hgetD], rfl, by omega, by omega, ?_, ?_⟩
        · intro j hj
          rcases Nat.lt_succ_iff_lt_or_eq.mp hj with hj2 | hj2
          · cases best with
            | none =>
              obtain ⟨hbm, hall⟩ := hacc
              rw [hall j hj2]
              omega
            | some pr =>
              obtain ⟨b, m⟩ := pr
              obtain ⟨_, _, _, _, _, _, hle, _⟩ := hacc
              exact le_of_lt (lt_of_le_of_lt (hle j hj2) hlt)
          · rw [hj2, hic]
        · intro j hj
          cases best with
          | none =>
            obtain ⟨hbm, hall⟩ := hacc
            rw [hall j hj]
            omega
          | some pr =>
            obtain ⟨b, m⟩ := pr
            obtain ⟨_, _, _, _, _, _, hle, _⟩ := hacc
            exact lt_of_le_of_lt (hle j hj) hlt
    · rw [if_neg hlt]
      apply ih (idx + 1) best bm hdrop2
      cases best with
      | none =>
        obtain ⟨hbm, hall⟩ := hacc
        refine ⟨hbm, ?_⟩
        intro j hj
        rcases Nat.lt_succ_iff_lt_or_eq.mp hj with hj2 | hj2
        · exact hall j hj2
        · rw [hj2, hic]; omega
      | some pr =>
        obtain ⟨b, m⟩ := pr
        obtain ⟨hb, hblen, hm, hbm, hpos, hrem, hle, hltb⟩ := hacc
        refine ⟨by omega, hblen, hm, hbm, hpos, hrem, ?_, hltb⟩
        intro j hj
        rcases Nat.lt_succ_iff_lt_or_eq.mp hj with hj2 | hj2
        · exact hle j hj2
        · rw [hj2, hic]; omega

/-- The full scan, from the initial accumulator, satisfies the
earliest-argmax postcondition. -/
theorem scanGroups_char (remaining : Finset String) (groups : List EventGroup) :
    ScanResult remaining groups (scanGroups remaining groups) :=
  scanGo_char remaining groups groups 0 none 0 rfl
    ⟨rfl, fun j hj => absurd hj (Nat.not_lt_zero j)⟩

/-- C6 witness: an error-valued evaluator panic at a concrete input is
returned as a structured error. -/
theorem evaluator_fault_isolation_witness :
    panicEngine.evalRun { src := "a" } [] = EvalOutcome.panicErr "runtime fault" ∧
    (evaluateExpression panicEngine
      { name := "m", expression := "a", vars := [],
        evaluatorExpression := some { src := "a" } } []).1 =
      Except.error (GoErr.evalError "runtime fault") :=
  ⟨rfl, evaluator_fault_isolation.2.1 panicEngine
    { name := "m", expression := "a", vars := [],
      evaluatorExpression := some { src := "a" } }
    [] { src := "a" } "runtime fault" rfl rfl⟩

/-- Fuel at least `remaining.card` never runs out: each winning scan
removes at least one variable from the remaining set, and the
empty-remaining and no-match branches stop immediately. -/
theorem resolveLoop_fuel_sufficient (groups : List EventGroup) :
    ∀ (fuel : Nat) (vars : List (String × Int)) (remaining : Finset String),
      remaining.card ≤ fuel →
      (resolveLoop groups fuel vars remaining).isSome = true := by
  intro fuel
  induction fuel with
  | zero =>
    intro vars remaining h
    simp only [resolveLoop]
    rw [if_pos (Nat.le_zero.mp h)]
    rfl
  | succ fuel ih =>
    intro vars remaining h
    by_cases hc : remaining.card = 0
    · simp [resolveLoop, hc]
    · cases hscan : scanGroups remaining groups with
      | none => simp [resolveLoop, hc, hscan]
      | some pr =>
        obtain ⟨idx, matched⟩ := pr
        have hchar := scanGroups_char remaining groups
        rw [hscan] at hchar
        obtain ⟨hi, hm, hpos, _, _⟩ := hchar
        have hsub : matched ⊆ remaining := by
          rw [hm]; exact Finset.inter_subset_left
        have hmne : matched.Nonempty := Finset.card_pos.mp hpos
        have hlt : (remaining \ matched).card < remaining.card :=
          Finset.card_lt_card (Finset.sdiff_ssubset hsub hmne)
        have hrec := ih (setVars vars matched (Int.ofNat idx))
          (remaining \ matched) (by omega)
        simp only [resolveLoop]
        rw [if_neg hc, hscan]
        exact hrec

/-- C10: the resolver's outer loop terminates within as many iterations
as there are remaining variables: with fuel at least `remaining.card`
the fuelled loop never reaches the out-of-fuel marker — each iteration
either finds the remaining set empty, takes the no-match failure branch
and stops, or removes the (nonempty) matched set from the remaining
set.  In particular the fuel `loadMetricBestGroups` supplies — the
metric's variable count — always suffices, so its fallback branch is
dead code. -/
theorem resolver_loop_terminates (groups : List EventGroup) :
    ∀ (fuel : Nat) (vars : List (String × Int)) (remaining : Finset String),
      remaining.card ≤ fuel →
      (resolveLoop groups fuel vars remaining).isSome = true :=
  resolveLoop_fuel_sufficient groups

/-- C10 witness: the termination bound applied at a concrete input. -/
theorem resolver_loop_terminates_witness :
    ({"a"} : Finset String).card ≤ 1 ∧
    (resolveLoop [] 1 [("a", -1)] {"a"}).isSome = true :=
  ⟨by decide, resolver_loop_terminates [] 1 [("a", -1)] {"a"} (by decide)⟩

/-- C4: the resolver follows the greedy maximum-coverage algorithm
exactly.  Given a nonempty remaining-variable set: (1) the scan comes
back empty **iff** every group's intersection with the remaining names
is empty, and in that case one loop step marks every remaining
variable `-2` (Failed) and returns the error carrying exactly those
names; (2) a successful scan returns the earliest group index attaining
the maximal intersection size (strictly greater than every earlier
group, at least as large as every later one — the short-circuit on a
full cover cannot be beaten), the matched set is exactly that group's
intersection with the remaining names, every matched variable is
assigned that group's index, and the loop recurses on the rest.
Determinism is immediate: the embedding is a pure function of the
frame and variable set. -/
theorem resolver_greedy_max_coverage (remaining : Finset String)
    (groups : List EventGroup) (vars : List (String × Int)) (fuel : Nat)
    (hne : remaining.Nonempty) :
    (scanGroups remaining groups = none ↔
      ∀ j < groups.length, interCard remaining groups j = 0) ∧
    (scanGroups remaining groups = none →
      resolveLoop groups (fuel + 1) vars remaining =
        some (setVars vars remaining (-2), some remaining)) ∧
    ∀ idx matched, scanGroups remaining groups = some (idx, matched) →
      idx < groups.length ∧
      matched = remaining ∩ goMapKeys (groups.getD idx emptyGroup).eventValues ∧
      0 < matched.card ∧
      (∀ j < groups.length,
        interCard remaining groups j ≤ interCard remaining groups idx) ∧
      (∀ j < idx, interCard remaining groups j < interCard remaining groups idx) ∧
      (∀ p ∈ setVars vars matched (Int.ofNat idx),
        p.1 ∈ matched → p.2 = Int.ofNat idx) ∧
      resolveLoop groups (fuel + 1) vars remaining =
        resolveLoop groups fuel (setVars vars matched (Int.ofNat idx))
          (remaining \ matched) := by
  have hcard : ¬ remaining.card = 0 := hne.card_pos.ne'
  refine ⟨⟨?_, ?_⟩, ?_, ?_⟩
  · intro h
    have hchar := scanGroups_char remaining groups
    rw [h] at hchar
    exact hchar
  · intro hall
    cases hscan : scanGroups remaining groups with
    | none => rfl
    | some pr =>
      obtain ⟨i, m⟩ := pr
      have hchar := scanGroups_char remaining groups
      rw [hscan] at hchar
      obtain ⟨hi, hm, hpos, _, _⟩ := hchar
      have hzero : interCard remaining groups i = 0 := hall i hi
      rw [interCard, ← hm] at hzero
      omega
  · intro hscan
    simp only [resolveLoop]
    rw [if_neg hcard, hscan]
  · intro idx matched hscan
    have hchar := scanGroups_char remaining groups
    rw [hscan] at hchar
    obtain ⟨hi, hm, hpos, hmax, hearlier⟩ := hchar
    refine ⟨hi, hm, hpos, hmax, hearlier, ?_, ?_⟩
    · intro p hp hpm
      obtain ⟨q, hq, rfl⟩ := List.mem_map.mp hp
      by_cases hq1 : q.1 ∈ matched
      · simp [hq1]
      · simp only [if_neg hq1] at hpm ⊢
        exact absurd hpm hq1
    · simp only [resolveLoop]
      rw [if_neg hcard, hscan]

/-- C4 witness: the characterization applied at a concrete frame —
one group supplying `a` — with remaining set `{a}`. -/
theorem resolver_greedy_max_coverage_witness :
    ({"a"} : Finset String).Nonempty ∧
    (scanGroups {"a"} frameIso.eventGroups = none ↔
      ∀ j < frameIso.eventGroups.length, interCard {"a"} frameIso.eventGroups j = 0) :=
  ⟨by decide,
   (resolver_greedy_max_coverage {"a"} frameIso.eventGroups [("a", -1)] 0
     (by decide)).1⟩

/-- A membership-aware strengthening of `List.Forall₂.imp`. -/
theorem forall₂_imp_mem {α β : Type} {R S : α → β → Prop} :
    ∀ {l1 : List α} {l2 : List β}, List.Forall₂ R l1 l2 →
      (∀ a ∈ l1, ∀ b, R a b → S a b) → List.Forall₂ S l1 l2 := by
  intro l1 l2 h
  induction h with
  | nil => intro _; exact List.Forall₂.nil
  | @cons a b as bs hab _ ih =>
    intro hmem
    exact List.Forall₂.cons (hmem a (by simp) b hab)
      (ih fun x hx y hR => hmem x (by simp [hx]) y hR)

/-- Every element of the right list of a `Forall₂` is related to some
element of the left list. -/
theorem forall₂_right_mem {α β : Type} {R : α → β → Prop} :
    ∀ {l1 : List α} {l2 : List β}, List.Forall₂ R l1 l2 →
      ∀ b ∈ l2, ∃ a ∈ l1, R a b := by
  intro l1 l2 h
  induction h with
  | nil => intro b hb; simp at hb
  | @cons a b as bs hab _ ih =>
    intro y hy
    rcases List.mem_cons.mp hy with rfl | hy2
    · exact ⟨a, by simp, hab⟩
    · obtain ⟨x, hx, hR⟩ := ih y hy2
      exact ⟨x, by simp [hx], hR⟩

/-- What one full run of the resolution loop can do to the variable
map: names and order are preserved, each state is either unchanged or
set to `-2` or set to a group index, and every variable whose name was
in the remaining set ends `-2` or assigned. -/
theorem resolveLoop_vars_spec (groups : List EventGroup) :
    ∀ (fuel : Nat) (vars : List (String × Int)) (remaining : Finset String)
      (out : List (String × Int)) (oerr : Option (Finset String)),
      resolveLoop groups fuel vars remaining = some (out, oerr) →
      List.Forall₂ (fun p q => q.1 = p.1 ∧
        (q.2 = p.2 ∨ q.2 = -2 ∨ 0 ≤ q.2) ∧
        (p.1 ∈ remaining → q.2 = -2 ∨ 0 ≤ q.2)) vars out := by
  intro fuel
  induction fuel with
  | zero =>
    intro vars remaining out oerr h
    simp only [resolveLoop] at h
    by_cases hc : remaining.card = 0
    · rw [if_pos hc] at h
      obtain ⟨rfl, rfl⟩ : vars = out ∧ (none : Option (Finset String)) = oerr := by
        cases h; exact ⟨rfl, rfl⟩
      have hempty : remaining = ∅ := Finset.card_eq_zero.mp hc
      refine List.forall₂_same.mpr fun p _ => ⟨rfl, Or.inl rfl, fun hp => ?_⟩
      rw [hempty] at hp
      exact absurd hp (Finset.not_mem_empty p.1)
    · rw [if_neg hc] at h
      exact absurd h (by simp)
  | succ fuel ih =>
    intro vars remaining out oerr h
    simp only [resolveLoop] at h
    by_cases hc : remaining.card = 0
    · rw [if_pos hc] at h
      obtain ⟨rfl, rfl⟩ : vars = out ∧ (none : Option (Finset String)) = oerr := by
        cases h; exact ⟨rfl, rfl⟩
      have hempty : remaining = ∅ := Finset.card_eq_zero.mp hc
      refine List.forall₂_same.mpr fun p _ => ⟨rfl, Or.inl rfl, fun hp => ?_⟩
      rw [hempty] at hp
      exact absurd hp (Finset.not_mem_empty p.1)
    · rw [if_neg hc] at h
      cases hscan : scanGroups remaining groups with
      | none =>
        rw [hscan] at h
        have hout : out = setVars vars remaining (-2) := by cases h; rfl
        rw [hout, setVars]
        rw [List.forall₂_map_right_iff]
        refine List.forall₂_same.mpr fun p _ => ?_
        by_cases hp : p.1 ∈ remaining
        · simp [hp]
        · simp [hp]
      | some pr =>
        obtain ⟨idx, matched⟩ := pr
        rw [hscan] at h
        have hrec := ih (setVars vars matched (Int.ofNat idx)) (remaining \ matched)
          out oerr h
        rw [setVars, List.forall₂_map_left_iff] at hrec
        refine forall₂_imp_mem hrec ?_
        intro p _ q hq
        by_cases hpm : p.1 ∈ matched
        · simp only [if_pos hpm] at hq
          obtain ⟨hq1, hq2, _⟩ := hq
          have hval : q.2 = -2 ∨ 0 ≤ q.2 := by
            rcases hq2 with hq2 | hq2 | hq2
            · exact Or.inr (by rw [hq2]; exact Int.ofNat_nonneg idx)
            · exact Or.inl hq2
            · exact Or.inr hq2
          exact ⟨hq1, hval.elim (fun h2 => Or.inr (Or.inl h2))
            (fun h2 => Or.inr (Or.inr h2)), fun _ => hval⟩
        · simp only [if_neg hpm] at hq
          obtain ⟨hq1, hq2, hq3⟩ := hq
          refine ⟨hq1, hq2, fun hp => ?_⟩
          exact hq3 (Finset.mem_sdiff.mpr ⟨hp, hpm⟩)

/-- After `loadMetricBestGroups`, every variable of the metric is
either `Failed` (`-2`) or assigned a group index (`≥ 0`); names and
order are preserved.  (The loop starts from the full key set, so every
entry's name is in the initial remaining set; the fuel — the variable
count — always suffices.) -/
theorem loadMetricBestGroups_vars (metric : MetricDefinition) (frame : EventFrame) :
    List.Forall₂ (fun p q => q.1 = p.1 ∧ (q.2 = -2 ∨ 0 ≤ q.2))
      metric.vars (loadMetricBestGroups metric frame).1 := by
  have hs := resolveLoop_fuel_sufficient frame.eventGroups
    (goMapKeys metric.vars).card metric.vars (goMapKeys metric.vars) le_rfl
  simp only [loadMetricBestGroups]
  cases hres : resolveLoop frame.eventGroups (goMapKeys metric.vars).card
      metric.vars (goMapKeys metric.vars) with
  | none => rw [hres] at hs; simp at hs
  | some r =>
    obtain ⟨out, oerr⟩ := r
    have hspec := resolveLoop_vars_spec frame.eventGroups
      (goMapKeys metric.vars).card metric.vars (goMapKeys metric.vars) out oerr hres
    refine forall₂_imp_mem hspec ?_
    intro p hp q hq
    obtain ⟨hq1, _, hq3⟩ := hq
    exact ⟨hq1, hq3 (List.mem_toFinset.mpr (List.mem_map_of_mem Prod.fst hp))⟩

/-- A metric with a `Failed` variable short-circuits: empty bindings,
a skip error, and an untouched variable map. -/
theorem getExpressionVariables_failed (metric : MetricDefinition)
    (frame : EventFrame) (previousTimestamp : GoFloat) (metadata : Metadata)
    (hf : hasFailed metric.vars) :
    ∃ n, getExpressionVariables metric frame previousTimestamp metadata =
      ([], some (GoErr.failedVarSkip n), metric.vars) := by
  have hsome : (metric.vars.find? (fun p => p.2 == -2)).isSome := by
    rw [List.find?_isSome]
    obtain ⟨p, hp, hp2⟩ := hf
    exact ⟨p, hp, by simp [hp2]⟩
  obtain ⟨p, hp⟩ := Option.isSome_iff_exists.mp hsome
  exact ⟨p.1, by simp only [getExpressionVariables, hp]⟩

/-- A metric with no `Unresolved` and no `Failed` variable skips
resolution entirely: bindings are the normalized values and the
variable map is untouched. -/
theorem getExpressionVariables_noload (metric : MetricDefinition)
    (frame : EventFrame) (previousTimestamp : GoFloat) (metadata : Metadata)
    (hu : noUnresolved metric.vars) (hf : ¬ hasFailed metric.vars) :
    getExpressionVariables metric frame previousTimestamp metadata =
      (metric.vars.map
        (fun p => (p.1, normalizeValue frame previousTimestamp metadata p.1 p.2)),
       none, metric.vars) := by
  have hany : metric.vars.any (fun p => p.2 == -1) = false := by
    simp only [List.any_eq_false, beq_iff_eq]
    exact hu
  have hfind : metric.vars.find? (fun p => p.2 == -2) = none := by
    rw [List.find?_eq_none]
    intro p hp
    simp only [beq_iff_eq]
    exact fun h2 => hf ⟨p, hp, h2⟩
  simp only [getExpressionVariables, hany, hfind, Bool.false_eq_true, if_false]

/-- When resolution is triggered (some variable `-1`, none `-2`), the
variable map handed back is exactly what `loadMetricBestGroups`
produced — whether or not resolution succeeded. -/
theorem getExpressionVariables_load (metric : MetricDefinition)
    (frame : EventFrame) (previousTimestamp : GoFloat) (metadata : Metadata)
    (hany : metric.vars.any (fun p => p.2 == -1) = true)
    (hf : ¬ hasFailed metric.vars) :
    (getExpressionVariables metric frame previousTimestamp metadata).2.2 =
      (loadMetricBestGroups metric frame).1 := by
  have hfind : metric.vars.find? (fun p => p.2 == -2) = none := by
    rw [List.find?_eq_none]
    intro p hp
    simp only [beq_iff_eq]
    exact fun h2 => hf ⟨p, hp, h2⟩
  simp only [getExpressionVariables, hany, hfind, if_true]
  cases hr : (loadMetricBestGroups metric frame).2 <;> simp [hr]

/-- The definition a `processOneMetric` step stores back: the input
definition with only the variable map replaced by what
`getExpressionVariables` returned (the Go map field aliases; the
struct copy's other fields are unchanged). -/
theorem processOneMetric_snd (engine : EvalEngine) (frame : EventFrame)
    (previousTimestamp : GoFloat) (metadata : Metadata) (d : MetricDefinition) :
    (processOneMetric engine frame previousTimestamp metadata d).2 =
      { d with vars :=
          (getExpressionVariables d frame previousTimestamp metadata).2.2 } := by
  simp only [processOneMetric]
  split
  · rfl
  · split <;> rfl

/-- A metric a `processOneMetric` step emits carries the definition's
name. -/
theorem processOneMetric_name (engine : EvalEngine) (frame : EventFrame)
    (previousTimestamp : GoFloat) (metadata : Metadata) (d : MetricDefinition)
    (m : Metric) :
    (processOneMetric engine frame previousTimestamp metadata d).1 = some m →
    m.name = d.name := by
  simp only [processOneMetric]
  split
  · intro h; simp at h
  · split
    · intro h; simp at h
    · intro h
      injection h with h2
      rw [← h2]

/-- The per-definition lifecycle of one pipeline step: under the
reachability invariant, the stored definition satisfies `DefStep`
(names/expression/cache field unchanged, invariant preserved, only
`Unresolved → {Failed, ResolvedToGroup}` transitions, failed and fully
resolved maps untouched), and a definition with a `Failed` variable
emits no metric. -/
theorem processOneMetric_defStep (engine : EvalEngine) (frame : EventFrame)
    (previousTimestamp : GoFloat) (metadata : Metadata) (d : MetricDefinition)
    (hinv : VarInv d.vars) :
    DefStep d (processOneMetric engine frame previousTimestamp metadata d).2 ∧
    (hasFailed d.vars →
      (processOneMetric engine frame previousTimestamp metadata d).1 = none) := by
  have hsnd := processOneMetric_snd engine frame previousTimestamp metadata d
  have htrans : varsTrans d.vars d.vars :=
    List.forall₂_same.mpr fun p _ => ⟨rfl, Or.inl rfl⟩
  by_cases hf : hasFailed d.vars
  · obtain ⟨n, hn⟩ :=
      getExpressionVariables_failed d frame previousTimestamp metadata hf
    have hvars : (getExpressionVariables d frame previousTimestamp metadata).2.2 =
        d.vars := by rw [hn]
    have hfst : (processOneMetric engine frame previousTimestamp metadata d).1 =
        none := by simp only [processOneMetric, hn]
    refine ⟨?_, fun _ => hfst⟩
    rw [hsnd, hvars]
    exact ⟨rfl, rfl, rfl, hinv, htrans, fun _ => rfl, fun _ => rfl⟩
  · by_cases hany : d.vars.any (fun p => p.2 == -1) = true
    · have hall : allUnresolved d.vars := by
        rcases hinv with h | h
        · exact h
        · obtain ⟨p, hp, hp1⟩ : ∃ p ∈ d.vars, p.2 = -1 := by
            rw [List.any_eq_true] at hany
            obtain ⟨p, hp, hp1⟩ := hany
            exact ⟨p, hp, by simpa using hp1⟩
          exact absurd hp1 (h p hp)
      have hload :=
        getExpressionVariables_load d frame previousTimestamp metadata hany hf
      have hforall := loadMetricBestGroups_vars d frame
      refine ⟨?_, fun hf2 => absurd hf2 hf⟩
      rw [hsnd, hload]
      refine ⟨rfl, rfl, rfl, ?_, ?_, fun hf2 => absurd hf2 hf, fun hres => ?_⟩
      · right
        intro q hq
        obtain ⟨p, hp, hpq⟩ := forall₂_right_mem hforall q hq
        rcases hpq.2 with h2 | h2 <;> omega
      · exact forall₂_imp_mem hforall
          fun p hp q hq => ⟨hq.1, Or.inr ⟨hall p hp, hq.2⟩⟩
      · exfalso
        rw [List.any_eq_true] at hany
        obtain ⟨p, hp, hp1⟩ := hany
        have h1 : p.2 = -1 := by simpa using hp1
        have h2 := hres p hp
        omega
    · have hu : noUnresolved d.vars := by
        intro p hp
        rw [Bool.not_eq_true, List.any_eq_false] at hany
        have := hany p hp
        simpa using this
      have hnl :=
        getExpressionVariables_noload d frame previousTimestamp metadata hu hf
      have hvars : (getExpressionVariables d frame previousTimestamp metadata).2.2 =
          d.vars := by rw [hnl]
      refine ⟨?_, fun hf2 => absurd hf2 hf⟩
      rw [hsnd, hvars]
      exact ⟨rfl, rfl, rfl, hinv, htrans, fun _ => rfl, fun _ => rfl⟩

/-- Distinct definition names identify definitions. -/
theorem eq_of_name_nodup :
    ∀ {defs : List MetricDefinition},
      (defs.map MetricDefinition.name).Nodup →
      ∀ {a b : MetricDefinition}, a ∈ defs → b ∈ defs →
        a.name = b.name → a = b := by
  intro defs
  induction defs with
  | nil => intro _ a b ha; simp at ha
  | cons d ds ih =>
    intro h a b ha hb hab
    rw [List.map_cons, List.nodup_cons] at h
    rcases List.mem_cons.mp ha with rfl | ha2
    · rcases List.mem_cons.mp hb with rfl | hb2
      · rfl
      · have : a.name ∈ ds.map MetricDefinition.name := by
          rw [hab]
          exact List.mem_map_of_mem MetricDefinition.name hb2
        exact absurd this h.1
    · rcases List.mem_cons.mp hb with rfl | hb2
      · have : b.name ∈ ds.map MetricDefinition.name := by
          rw [← hab]
          exact List.mem_map_of_mem MetricDefinition.name ha2
        exact absurd this h.1
      · exact ih h.2 ha2 hb2 hab

/-- `DefStep` preserves the list of definition names. -/
theorem defSteps_names {l l' : List MetricDefinition}
    (h : List.Forall₂ DefStep l l') :
    l'.map MetricDefinition.name = l.map MetricDefinition.name := by
  induction h with
  | nil => rfl
  | cons hab _ ih => simp [ih, hab.1]

/-- One `processEvents` call: every stored definition evolves by
`DefStep`, and (with distinct names) a definition already carrying a
`Failed` variable contributes no metric to the output. -/
theorem processEvents_step (engine : EvalEngine)
    (frameRes : Except String EventFrame) (defs : List MetricDefinition)
    (prev : GoFloat) (meta : Metadata)
    (hinv : ∀ d ∈ defs, VarInv d.vars) :
    List.Forall₂ DefStep defs (processEvents engine frameRes defs prev meta).2.2.2 ∧
    ((defs.map MetricDefinition.name).Nodup →
      ∀ d ∈ defs, hasFailed d.vars →
        ∀ m ∈ (processEvents engine frameRes defs prev meta).1, m.name ≠ d.name) := by
  have hloop := processLoop_spec engine (acquireFrame frameRes).1 prev meta defs
    (acquireFrame frameRes).2
  constructor
  · rw [show (processEvents engine frameRes defs prev meta).2.2.2 =
        (processLoop engine (acquireFrame frameRes).1 prev meta defs
          (acquireFrame frameRes).2).2.2 from rfl, hloop.2.1]
    rw [List.forall₂_map_right_iff]
    exact List.forall₂_same.mpr fun d hd =>
      (processOneMetric_defStep engine (acquireFrame frameRes).1 prev meta d
        (hinv d hd)).1
  · intro hnodup d hd hfd m hm heq
    have hm2 : m ∈ defs.filterMap
        (fun x => (processOneMetric engine (acquireFrame frameRes).1 prev meta x).1) := by
      rw [← hloop.1]
      exact hm
    obtain ⟨d2, hd2, hsome⟩ := List.mem_filterMap.mp hm2
    have hname := processOneMetric_name engine (acquireFrame frameRes).1 prev meta
      d2 m hsome
    have hdd : d2 = d :=
      eq_of_name_nodup hnodup hd2 hd (by rw [← hname, heq])
    rw [hdd] at hsome
    rw [(processOneMetric_defStep engine (acquireFrame frameRes).1 prev meta d
      (hinv d hd)).2 hfd] at hsome
    exact absurd hsome (by simp)

/-- The reachability invariant and name distinctness persist along any
prefix of pipeline calls. -/
theorem pipelineRun_inv (engine : EvalEngine) (meta : Metadata) :
    ∀ (pre : List (Except String EventFrame × GoFloat))
      (defs : List MetricDefinition),
      (∀ d ∈ defs, VarInv d.vars) →
      (defs.map MetricDefinition.name).Nodup →
      (∀ d ∈ pipelineRun engine meta defs pre, VarInv d.vars) ∧
      ((pipelineRun engine meta defs pre).map MetricDefinition.name).Nodup := by
  intro pre
  induction pre with
  | nil => intro defs h1 h2; exact ⟨h1, h2⟩
  | cons fr rest ih =>
    intro defs h1 h2
    have hstep := processEvents_step engine fr.1 defs fr.2 meta h1
    have hinv2 : ∀ d' ∈ (processEvents engine fr.1 defs fr.2 meta).2.2.2,
        VarInv d'.vars := by
      intro d' hd'
      obtain ⟨d, _, hds⟩ := forall₂_right_mem hstep.1 d' hd'
      exact hds.2.2.2.1
    have hnames2 := defSteps_names hstep.1
    simp only [pipelineRun]
    exact ih _ hinv2 (by rw [hnames2]; exact h2)

/-- C5: along any sequence of pipeline calls on a definition set that
starts fully `Unresolved` (with distinct metric names), every call
evolves each definition by `DefStep`: the resolution map only
transitions `Unresolved → Failed` (`-1 → -2`) or
`Unresolved → ResolvedToGroup` (`-1 → index ≥ 0`) and is never
reversed, a definition with a `Failed` variable keeps its map untouched
and contributes no metric to that frame's output (hence, states being
preserved, to any later frame's output), and a definition whose
variables are all `ResolvedToGroup` is never re-resolved — its map is
returned unchanged whatever the frame's group layout. -/
theorem resolution_state_lifecycle (engine : EvalEngine) (meta : Metadata)
    (defs : List MetricDefinition)
    (h0 : ∀ d ∈ defs, allUnresolved d.vars)
    (hnames : (defs.map MetricDefinition.name).Nodup) :
    ∀ (pre : List (Except String EventFrame × GoFloat))
      (fr : Except String EventFrame × GoFloat),
      List.Forall₂ DefStep (pipelineRun engine meta defs pre)
        (processEvents engine fr.1 (pipelineRun engine meta defs pre) fr.2
          meta).2.2.2 ∧
      ∀ d ∈ pipelineRun engine meta defs pre, hasFailed d.vars →
        ∀ m ∈ (processEvents engine fr.1 (pipelineRun engine meta defs pre) fr.2
            meta).1,
          m.name ≠ d.name := by
  intro pre fr
  have hinv0 : ∀ d ∈ defs, VarInv d.vars := fun d hd => Or.inl (h0 d hd)
  obtain ⟨hinv, hnodup⟩ := pipelineRun_inv engine meta pre defs hinv0 hnames
  have hstep := processEvents_step engine fr.1 _ fr.2 meta hinv
  exact ⟨hstep.1, fun d hd hfd m hm => hstep.2 hnodup d hd hfd m hm⟩

/-- C5 witness: the lifecycle theorem applied to the concrete
two-metric set on its first frame. -/
theorem resolution_state_lifecycle_witness :
    (∀ d ∈ [badDef, goodDef], allUnresolved d.vars) ∧
    (([badDef, goodDef].map MetricDefinition.name).Nodup) ∧
    List.Forall₂ DefStep [badDef, goodDef]
      (processEvents lookupEngine (Except.ok frameIso) [badDef, goodDef]
        (GoFloat.finite 1) ⟨1⟩).2.2.2 :=
  ⟨by decide, by decide,
   (resolution_state_lifecycle lookupEngine ⟨1⟩ [badDef, goodDef]
      (by decide) (by decide) []
      (Except.ok frameIso, GoFloat.finite 1)).1⟩
